import Mathlib

/-!
# Verification of the textpy core against its specification

This file gives a shallow embedding, in Lean 4, of the core algorithms of the
`textpy` repository:

* the "smart" pattern-matching engine of `src/utils/re_extensions.py`
  (`find_right_bracket`, `smart_match`, `smart_search`, `smart_sub`,
  `rsplit`, `real_findall`),
* the edit/replace transaction model of `src/interaction.py`
  (`FileEditor`, `Replacer.confirm`, `Replacer.rollback`),
* node navigation of `src/abc.py` (`PyText.jumpto`, `children_dict`,
  the leaf branch of `PyText.findall`),
* `ImportHistory.__eq__` of `src/imports.py`.

Python strings are modelled as `List Char`.  Python's `re` primitives are
modelled either abstractly (the functions below are parameterised by a search
or match primitive, together with the properties any `re` result satisfies) or
by a small concrete engine `litMatch`/`litSearch` that is faithful to `re` on
the fragment actually exercised: patterns that are literal apart from an
optional leading `^` anchor.  Loops of the source are embedded as fuel
recursion, so that termination claims become fuel-sufficiency theorems.
-/

set_option maxRecDepth 10000

/-- Python `str` values are modelled as lists of characters. -/
abbrev Str := List Char

/-- Characters Python's `str.strip()` removes (the ASCII whitespace set). -/
def isPySpace (c : Char) : Bool :=
  c = ' ' || c = '\t' || c = '\n' || c = '\r' || c = '\x0b' || c = '\x0c'

/-- Python `s.strip()`: drop leading and trailing whitespace. -/
def pystrip (s : Str) : Str :=
  ((s.dropWhile isPySpace).reverse.dropWhile isPySpace).reverse

/-- Smallest index `i` with `p` a prefix of `s` from position `i` on
(`none` when there is no such index).  This is Python `s.find(p)` and also
characterises where `re.search` succeeds for a literal pattern `p`. -/
def firstIdx (p : Str) : Str → Option Nat
  | [] => if p.isPrefixOf [] then some 0 else none
  | c :: rest =>
    if p.isPrefixOf (c :: rest) then some 0
    else (firstIdx p rest).map (· + 1)

/-- Python `p in s` (substring containment). -/
def containsSub (p s : Str) : Bool :=
  (firstIdx p s).isSome

/-- Python `s.partition(sep)[0]`: the part of `s` before the first occurrence
of `sep` (all of `s` when `sep` does not occur). -/
def takeBefore (sep s : Str) : Str :=
  match firstIdx sep s with
  | some i => s.take i
  | none => s

/-- Fueled body of Python `s.split(sep)` for a non-empty separator `sep`. -/
def splitOnF (sep : Str) : Nat → Str → List Str
  | 0, s => [s]
  | fuel + 1, s =>
    match firstIdx sep s with
    | none => [s]
    | some i => s.take i :: splitOnF sep fuel (s.drop (i + sep.length))

/-- Python `s.split(sep)` (non-empty `sep`; `str.split` raises on an empty
separator, which never occurs in this code base: the separator is the
marker token, `"{}"` by default). -/
def splitOn (sep s : Str) : List Str :=
  splitOnF sep (s.length + 1) s

/-- Python `ignore[::2]`: every second character, starting from index 0.
Used by `smart_match` to extract the opening brackets of the ignore set. -/
def everyOther : Str → Str
  | [] => []
  | [a] => [a]
  | a :: _ :: rest => a :: everyOther rest

/-- The closing bracket paired with an opening bracket, as hard-coded in
`find_right_bracket`.  `none` corresponds to the function's `ValueError`
branch, which is unreachable for the bracket ignore sets used in the
repository (`"()"`, `"()[]"`, `"()[]{}"`). -/
def rightOf (c : Char) : Option Char :=
  if c = '(' then some ')'
  else if c = '[' then some ']'
  else if c = '{' then some '}'
  else none

/-- Scanning loop of `find_right_bracket`: `pos` is the absolute index of the
head of the remaining list, `cnt` the current bracket depth.  Mirrors the
`for pos_now in range(start + 1, len(string))` loop: depth is incremented on
`left`, decremented on `right` (returning `pos + 1` at depth 0), and the scan
is aborted at a newline unless `crossline` is set. -/
def frbGo (lft rgt : Char) (crossline : Bool) : List Char → Nat → Nat → Option Nat
  | [], _, _ => none
  | c :: cs, pos, cnt =>
    if c = lft then frbGo lft rgt crossline cs (pos + 1) (cnt + 1)
    else if c = rgt then
      if cnt - 1 = 0 then some (pos + 1) else frbGo lft rgt crossline cs (pos + 1) (cnt - 1)
    else if c = '\n' && !crossline then none
    else frbGo lft rgt crossline cs (pos + 1) cnt

/-- `find_right_bracket(string, start, crossline)` of `re_extensions.py`, with
the opening bracket `string[start]` and its partner passed explicitly: returns
the position one past the matching right bracket, `none` for the function's
`-1` (not found). -/
def find_right_bracket (lft rgt : Char) (s : Str) (start : Nat) (crossline : Bool) :
    Option Nat :=
  frbGo lft rgt crossline (s.drop (start + 1)) (start + 1) 1

example : find_right_bracket '(' ')' "a(c)b".toList 1 false = some 4 := by decide
example : find_right_bracket '(' ')' "a(c".toList 1 false = none := by decide
example : find_right_bracket '(' ')' "a(c\nx)b".toList 1 false = none := by decide
example : find_right_bracket '(' ')' "a(c\nx)b".toList 1 true = some 6 := by decide
example : find_right_bracket '(' ')' "a((x))b".toList 1 false = some 6 := by decide
example : splitOn "{}".toList "a{}b".toList = ["a".toList, "b".toList] := by decide
example : everyOther "()[]".toList = "([".toList := by decide

/-- `SmartPattern` of `re_extensions.py`: a pattern string containing marker
tokens, the bracket ignore set, and the marker token (`"{}"` by default).
Regex flags are reduced to the one bit the engine inspects, `re.DOTALL`,
passed separately as `crossline`. -/
structure SPat where
  pattern : Str
  ignore : Str
  markIgnore : Str
deriving Repr, DecidableEq

/-- An abstract anchored matcher: `reM pat s` is the end position of the match
of `pat` at the start of `s` (Python `re.match(pat, s).end()`), `none` when
there is no match. -/
abbrev MatchFn := Str → Str → Option Nat

/-- An abstract unanchored searcher: `reS pat s` is the span of the leftmost
match of `pat` in `s` (Python `re.search(pat, s).span()`). -/
abbrev SearchFn := Str → Str → Option (Nat × Nat)

/-- The `for s in splited[:-1]` loop of `smart_match`, followed by the final
match against `temp + splited[-1]`.  State: `pos` is `pos_now`, `temp` the
accumulated unanchored-for pattern text, `recorded` is `recorded_group`, `s`
the remaining input.  After each successful partial match, if the next input
character is an opening bracket of the ignore set, the balanced span is
consumed verbatim (via `find_right_bracket`) and spliced into `recorded`;
a `find_right_bracket` failure (including its unreachable-here `ValueError`
branch) aborts the match. -/
def smartMatchGo (reM : MatchFn) (lft : Str) (crossline : Bool) (lastSeg : Str) :
    List Str → Nat → Str → Str → Str → Option (Nat × Str)
  | [], pos, temp, recorded, s =>
    match reM (temp ++ lastSeg) s with
    | some e => some (pos + e, recorded ++ s.take e)
    | none => none
  | sg :: rest, pos, temp, recorded, s =>
    let temp' := temp ++ sg
    match reM temp' s with
    | none => none
    | some e =>
      match s.get? e with
      | some c =>
        if c ∈ lft then
          match rightOf c with
          | none => none
          | some rgt =>
            match find_right_bracket c rgt s e crossline with
            | none => none
            | some n =>
              smartMatchGo reM lft crossline lastSeg rest (pos + n) []
                (recorded ++ s.take n) (s.drop n)
        else smartMatchGo reM lft crossline lastSeg rest pos temp' recorded s
      | none => smartMatchGo reM lft crossline lastSeg rest pos temp' recorded s

/-- `smart_match(pattern, string, flags)` for a `SmartPattern`, parameterised
by the anchored matcher used for the literal segments.  Returns the end
position of the match (the span is `(0, end)`) and the matched group. -/
def smart_match (reM : MatchFn) (p : SPat) (crossline : Bool) (s : Str) :
    Option (Nat × Str) :=
  if containsSub p.markIgnore p.pattern then
    let segs := splitOn p.markIgnore p.pattern
    smartMatchGo reM (everyOther p.ignore) crossline (segs.getLastD [])
      segs.dropLast 0 [] [] s
  else
    (reM p.pattern s).map (fun e => (e, s.take e))

/-- Drop one leading `^` anchor; on a pattern anchored at the start this is
what `re.match` effectively sees. -/
def stripCaret : Str → Str
  | [] => []
  | c :: rest => if c = '^' then rest else c :: rest

/-- `re.match(pat, s)` for patterns that are literal apart from an optional
leading `^` anchor: the anchor is redundant for an anchored match, the rest
must be a prefix of `s`. -/
def litMatch : MatchFn := fun pat s =>
  let p := stripCaret pat
  if p.isPrefixOf s then some p.length else none

/-- `re.search(pat, s)` for the same pattern fragment: with a leading `^` (and
no MULTILINE flag) the pattern can only match at position 0; otherwise the
leftmost occurrence of the literal is the match. -/
def litSearch : SearchFn := fun pat s =>
  match pat with
  | [] => (firstIdx ([] : Str) s).map (fun i => (i, i))
  | c :: p' =>
    if c = '^' then (if p'.isPrefixOf s then some (0, p'.length) else none)
    else (firstIdx (c :: p') s).map (fun i => (i, i + (c :: p').length))

/-- The scan loop of `smart_search` (`while string and (searched := ...)`):
`toSearch` is the pattern text before the first marker, `pos` the cumulative
absolute offset.  On a hit of `toSearch`, the anchored `smart_match` is tried
there; on its failure the scan resumes one character further. -/
def ssGo (reS : SearchFn) (reM : MatchFn) (p : SPat) (crossline : Bool)
    (toSearch : Str) : Nat → Nat → Str → Option (Nat × Nat × Str)
  | 0, _, _ => none
  | _ + 1, _, [] => none
  | fuel + 1, pos, c :: rest =>
    match reS toSearch (c :: rest) with
    | none => none
    | some (st, _) =>
      let pos' := pos + st
      let s' := (c :: rest).drop st
      match smart_match reM p crossline s' with
      | some (e, g) => some (pos', pos' + e, g)
      | none => ssGo reS reM p crossline toSearch fuel (pos' + 1) (s'.drop 1)

/-- `smart_search(pattern, string, flags)` for a `SmartPattern`: result is
`(start, end, group)` with absolute offsets.  When the marker does not occur
in the pattern the call is delegated to plain `re.search`. -/
def smart_search (reS : SearchFn) (reM : MatchFn) (p : SPat) (crossline : Bool)
    (fuel : Nat) (s : Str) : Option (Nat × Nat × Str) :=
  if containsSub p.markIgnore p.pattern then
    ssGo reS reM p crossline (takeBefore p.markIgnore p.pattern) fuel 0 s
  else
    (reS p.pattern s).map (fun r => (r.1, r.2, (s.take r.2).drop r.1))

/-- Offset-by-offset reference search, modelled from the spec:
"`search` is unanchored: retry `match` starting at offset 0, then 1, then 2,
…, until success or input exhausted; the reported span carries the cumulative
absolute offset." -/
def naiveGo (reM : MatchFn) (p : SPat) (crossline : Bool) :
    Nat → Nat → Str → Option (Nat × Nat × Str)
  | 0, _, _ => none
  | _ + 1, _, [] => none
  | fuel + 1, off, c :: rest =>
    match smart_match reM p crossline (c :: rest) with
    | some (e, g) => some (off, off + e, g)
    | none => naiveGo reM p crossline fuel (off + 1) rest

/-- Modelled from the spec: the naive unanchored search that retries the
anchored `smart_match` at every offset. -/
def naive_search (reM : MatchFn) (p : SPat) (crossline : Bool) (fuel : Nat)
    (s : Str) : Option (Nat × Nat × Str) :=
  naiveGo reM p crossline fuel 0 s

-- sanity checks of the engine against the SmartPattern docstring examples
example :
    smart_match litMatch ⟨"a{}b".toList, "()".toList, "{}".toList⟩ false "ab".toList
      = some (2, "ab".toList) := by decide
example :
    smart_match litMatch ⟨"a{}b".toList, "()".toList, "{}".toList⟩ false "a(c)b".toList
      = some (5, "a(c)b".toList) := by decide
example :
    smart_match litMatch ⟨"a{}b".toList, "()".toList, "{}".toList⟩ false "a(b)c".toList
      = none := by decide
example :
    smart_match litMatch ⟨"a{}b".toList, "()[]".toList, "{}".toList⟩ false
      "a(c)[c]b".toList = none := by decide
example :
    smart_search litSearch litMatch ⟨"a{}b".toList, "()".toList, "{}".toList⟩ false 6
      "xa(c)b".toList = some (1, 6, "a(c)b".toList) := by decide
example :
    smart_search litSearch litMatch ⟨"^b{}".toList, "()".toList, "{}".toList⟩ false 3
      "ab".toList = none := by decide
example :
    naive_search litMatch ⟨"^b{}".toList, "()".toList, "{}".toList⟩ false 3
      "ab".toList = some (1, 2, "b".toList) := by decide

/-- Result of a search step handed to the scanning loops below: absolute
`(start, end, group)` of the located match, as produced by `smart_search`
(or by `re.search` for a plain pattern). -/
abbrev ScanFn := Str → Option (Nat × Nat × Str)

/-- The contract every Python `re.search`/`smart_search` result satisfies:
the span lies inside the string and the group is exactly the spanned text. -/
def ScanSpec (search : ScanFn) : Prop :=
  ∀ s st en g, search s = some (st, en, g) →
    st ≤ en ∧ en ≤ s.length ∧ g = (s.take en).drop st

/-- The `while searched := smart_search(...)` loop of `smart_sub`.  State:
`acc` is `new_string`, `s` the remaining input, `count` the remaining
replacement budget (`Int`, since the source decrements 0 into negatives for
the unlimited case).  A zero-width match (`searched.end() == 0`) moves exactly
one input character to the output before the search resumes. -/
def smartSubGo (search : ScanFn) (repl : Nat × Nat × Str → Str) :
    Nat → Str → Str → Int → Option Str
  | 0, _, _, _ => none
  | fuel + 1, acc, s, count =>
    match search s with
    | none => some (acc ++ s)
    | some m =>
      let acc' := acc ++ s.take m.1 ++ repl m
      if s = [] then some (acc' ++ s)
      else if count - 1 = 0 then some (acc' ++ s)
      else if m.2.1 = 0 then
        smartSubGo search repl fuel (acc' ++ s.take 1) (s.drop 1) (count - 1)
      else
        smartSubGo search repl fuel acc' (s.drop m.2.1) (count - 1)

/-- `smart_sub(pattern, repl, string, count, flags)` with the search step and
the replacement (a constant string or a function of the match) abstracted. -/
def smart_sub (search : ScanFn) (repl : Nat × Nat × Str → Str) (count : Int)
    (fuel : Nat) (s : Str) : Option Str :=
  if count < 0 then some s
  else smartSubGo search repl fuel [] s count

/-- A `SmartMatch` object: span and group. -/
structure SM where
  span1 : Nat
  span2 : Nat
  group : Str
deriving Repr, DecidableEq

/-- `len(left) - 1 - left.rfind("\n")`: the number of characters after the
last newline of `left` (all of `left` when it has no newline). -/
def lastlinePos (l : Str) : Nat :=
  (l.reverse.takeWhile (· ≠ '\n')).length

/-- The scan loop of `real_findall(..., linemode=True)`: tracks the running
line number `nline` and the in-line column `linePos`; each finding is the pair
`(nline, match)` where the match's span is relative to the line.  A zero-width
match advances the scan by one character (bumping `nline` on a newline). -/
def realFindallLineGo (search : ScanFn) :
    Nat → Nat → Nat → Str → List (Nat × SM) → Option (List (Nat × SM))
  | 0, _, _, _, _ => none
  | fuel + 1, nline, linePos, s, acc =>
    match search s with
    | none => some acc
    | some (st, en, g) =>
      let left := s.take st
      let lcLeft := left.count '\n'
      let nline' := nline + lcLeft
      let linePos' := if lcLeft > 0 then 0 else linePos
      let llp := lastlinePos left
      let sm : SM := ⟨linePos' + llp, linePos' + llp + (en - st), g⟩
      let acc' := acc ++ [(nline', sm)]
      let nline'' := nline' + g.count '\n'
      let linePos'' :=
        if g.contains '\n' then lastlinePos g
        else linePos' + max (llp + (en - st)) 1
      if s.length = 0 then some acc'
      else if en = 0 then
        realFindallLineGo search fuel
          (nline'' + if s.headD ' ' = '\n' then 1 else 0) linePos'' (s.drop 1) acc'
      else realFindallLineGo search fuel nline'' linePos'' (s.drop en) acc'

/-- `real_findall(pattern, string, flags, linemode=True)` with the search
step abstracted. -/
def real_findall_line (search : ScanFn) (fuel : Nat) (s : Str) :
    Option (List (Nat × SM)) :=
  realFindallLineGo search fuel 1 0 s []

/-- The scan loop of `real_findall(..., linemode=False)`: findings are match
objects whose spans are shifted by the cumulative offset `totalPos`. -/
def realFindallPosGo (search : ScanFn) :
    Nat → Nat → Str → List SM → Option (List SM)
  | 0, _, _, _ => none
  | fuel + 1, totalPos, s, acc =>
    match search s with
    | none => some acc
    | some (st, en, g) =>
      let acc' := acc ++ [(⟨st + totalPos, en + totalPos, g⟩ : SM)]
      let totalPos' := totalPos + max en 1
      if s.length = 0 then some acc'
      else if en = 0 then realFindallPosGo search fuel totalPos' (s.drop 1) acc'
      else realFindallPosGo search fuel totalPos' (s.drop en) acc'

/-- `real_findall(pattern, string, flags, linemode=False)` with the search
step abstracted. -/
def real_findall_pos (search : ScanFn) (fuel : Nat) (s : Str) :
    Option (List SM) :=
  realFindallPosGo search fuel 0 s []

/-- `splits[-1] += t` on the reversed accumulator of `rsplit`. -/
def lastAdd (t : Str) : List Str → List Str
  | [] => [t]
  | h :: tl => (h ++ t) :: tl

/-- The `while searched and string` loop of `rsplit`, on a reversed
accumulator (`splitsRev`), with `stored` the delayed character of a preceding
zero-width match and `osearched` the pending search result for `s`.  Each
delimiter's group is appended as its own list element (to be joined with the
substring on its right by the final `reverse`-free reading: the source keeps
the group as a separate element of `splits`). -/
def rsplitGo (search : ScanFn) :
    Nat → List Str → Str → Str → Option (Nat × Nat × Str) → Int → Option (List Str)
  | 0, _, _, _, _, _ => none
  | _ + 1, splitsRev, stored, s, none, _ =>
    some (lastAdd (stored ++ s) splitsRev).reverse
  | _ + 1, splitsRev, stored, [], some _, _ =>
    some ([] :: lastAdd stored splitsRev).reverse
  | fuel + 1, splitsRev, stored, c :: s', some (st, en, g), mx =>
    if en = 0 then
      let splitsRev' := g :: lastAdd stored splitsRev
      if mx - 1 = 0 then some (lastAdd ([c] ++ s') splitsRev').reverse
      else rsplitGo search fuel splitsRev' [c] s' (search s') (mx - 1)
    else
      let splitsRev' := g :: lastAdd (stored ++ (c :: s').take st) splitsRev
      let s'' := (c :: s').drop en
      if mx - 1 = 0 then some (lastAdd s'' splitsRev').reverse
      else rsplitGo search fuel splitsRev' [] s'' (search s'') (mx - 1)

/-- `rsplit(pattern, string, maxsplit, flags)` of `re_extensions.py` with the
search step abstracted: a delimiter-keep-right split (each matched delimiter
is emitted as its own element, later displayed joined with the substring on
its right). -/
def rsplit (search : ScanFn) (mx : Int) (fuel : Nat) (s : Str) :
    Option (List Str) :=
  if mx < 0 then some [s]
  else
    match search s with
    | none => some [s]
    | some m => rsplitGo search fuel [[]] [] s (some m) mx

/-- One step of the model of `re.search(".*" + lit + ".*", s)` (no DOTALL):
`.*` cannot cross a newline, so the leftmost match is the first whole physical
line that contains `lit`, matched greedily from the line's start to its end. -/
def lineWideGo (lit : Str) : Nat → Nat → Str → Option (Nat × Nat × Str)
  | 0, _, _ => none
  | fuel + 1, pos, s =>
    let line := s.takeWhile (· ≠ '\n')
    if containsSub lit line then some (pos, pos + line.length, line)
    else
      match s.drop line.length with
      | [] => none
      | _ :: rest => lineWideGo lit fuel (pos + line.length + 1) rest

/-- Model of `re.search` for the widened patterns `".*" + p + ".*"` built by
`PyText.findall`, for a literal `p` without metacharacters or newlines:
returns the span and text of the first line containing `p`. -/
def lineWideSearch (lit : Str) (s : Str) : Option (Nat × Nat × Str) :=
  lineWideGo lit (s.length + 1) 0 s

-- sanity checks
example :
    smart_sub (fun s => if "b".toList.isPrefixOf s then some (0, 1, "b".toList)
        else (firstIdx "b".toList s).map (fun i => (i, i + 1, "b".toList)))
      (fun _ => "X".toList) 0 4 "aba".toList = some "aXa".toList := by decide
example :
    rsplit (fun s => ((firstIdx "b".toList s).map (fun i => (i, i + 1, "b".toList))))
      0 6 "abcba".toList
      = some ["a".toList, "bc".toList, "ba".toList] := by decide
example : lineWideSearch "b".toList "abc".toList = some (0, 3, "abc".toList) := by decide
example :
    lineWideSearch "b".toList "xy\nabc\nz".toList = some (3, 6, "abc".toList) := by
  decide
example :
    real_findall_line (lineWideSearch "b".toList) 4 "abc".toList
      = some [(1, ⟨0, 3, "abc".toList⟩)] := by decide
example :
    real_findall_line (lineWideSearch "b".toList) 9 "xy\nabc\nzb".toList
      = some [(2, ⟨0, 3, "abc".toList⟩), (3, ⟨0, 2, "zb".toList⟩)] := by decide

/-- Python exceptions that the embedded code can raise. -/
inductive PyErr where
  | typeError
  | valueError
  | attributeError
deriving Repr, DecidableEq

/-- The filesystem collaborator: a total map from paths to file contents. -/
def Disk := Str → Str

/-- Point update of the disk at one path. -/
def Disk.update (d : Disk) (p t : Str) : Disk :=
  fun q => if q = p then t else d q

/-- The part of a `PyFile` that the transaction model reads: the target path
and the file's text as loaded (`read_text(...).strip()`). -/
structure PyFileRec where
  path : Str
  text : Str
deriving Repr, DecidableEq

/-- `FileEditor` of `interaction.py` (an Edit): the target path, the owning
file record, the `overwrite` flag, the staged `new_text`, and the
`is_based_on` flag set when a chained successor supersedes this editor. -/
structure FileEditor where
  path : Str
  pyfile : PyFileRec
  overwrite : Bool
  newText : Str
  isBasedOn : Bool
deriving Repr, DecidableEq

/-- `FileEditor.read`: `self.path.read_text(...).strip()`. -/
def FileEditor.read (e : FileEditor) (d : Disk) : Str :=
  pystrip (d e.path)

/-- `FileEditor.write`: write `text + "\n"`, unless this editor has been
superseded (`is_based_on`). -/
def FileEditor.write (e : FileEditor) (t : Str) (d : Disk) : Disk :=
  if e.isBasedOn then d else d.update e.path (t ++ "\n".toList)

/-- `FileEditor.compare(text)`: in overwrite mode, whether the on-disk
content (stripped) equals `text`; editors writing to a fresh copy path skip
the check. -/
def FileEditor.compare (e : FileEditor) (d : Disk) (t : Str) : Bool :=
  if e.overwrite then e.read d = t else true

/-- `FileEditor.replace(pattern, repl)` on an editor chained `based_on` a
prior editor `a`: the substitution (abstracted as `subst`, the combination of
`smart_sub` with the counting replacement callback) runs over `a.new_text`,
never over the disk; if at least one replacement was made, the predecessor is
marked `is_based_on` so it is skipped on write.  Returns the updated
predecessor and the newly staged editor. -/
def stageBasedOn (a : FileEditor) (pyfile : PyFileRec) (subst : Str → Str × Nat) :
    FileEditor × FileEditor :=
  let r := subst a.newText
  let b : FileEditor :=
    { path := pyfile.path, pyfile := pyfile, overwrite := true
      newText := r.1, isBasedOn := false }
  let a' := if r.2 > 0 then { a with isBasedOn := true } else a
  (a', b)

/-- `Replacer` of `interaction.py`: the ordered editor list and the
confirmation flag. -/
structure Replacer where
  editors : List FileEditor
  confirmed : Bool
deriving Repr, DecidableEq

/-- The info dictionary `{"successful": [...], "failed": [...]}`. -/
structure Info where
  successful : List Str
  failed : List Str
deriving Repr, DecidableEq

/-- `Replacer.__overwrite(rb, fc)`: for every editor not superseded by a
chained successor, write the appropriate text if `fc` (force) is set or the
conflict check passes; otherwise record the path under `failed`.  Conflicts
are collected, never raised. -/
def overwriteRun (rb fc : Bool) : List FileEditor → Disk → Disk × Info
  | [], d => (d, ⟨[], []⟩)
  | e :: es, d =>
    if e.isBasedOn then overwriteRun rb fc es d
    else if fc || e.compare d (if rb then e.newText else e.pyfile.text) then
      let r := overwriteRun rb fc es (e.write (if rb then e.pyfile.text else e.newText) d)
      (r.1, ⟨e.path :: r.2.successful, r.2.failed⟩)
    else
      let r := overwriteRun rb fc es d
      (r.1, ⟨r.2.successful, e.path :: r.2.failed⟩)

/-- `Replacer.confirm()`: raises `TypeError` when already confirmed, else
flips the flag and runs the overwrite pass (`rb=False, fc=False`). -/
def Replacer.confirm (r : Replacer) (d : Disk) :
    Except PyErr (Info × Replacer × Disk) :=
  if r.confirmed then .error .typeError
  else
    let r2 := overwriteRun false false r.editors d
    .ok (r2.2, { r with confirmed := true }, r2.1)

/-- `Replacer.rollback(force)`: raises `TypeError` when not currently
confirmed, else flips the flag back and runs the overwrite pass
(`rb=True, fc=force`). -/
def Replacer.rollback (force : Bool) (r : Replacer) (d : Disk) :
    Except PyErr (Info × Replacer × Disk) :=
  if !r.confirmed then .error .typeError
  else
    let r2 := overwriteRun true force r.editors d
    .ok (r2.2, { r with confirmed := false }, r2.1)

/-- A `PyText` node as far as navigation is concerned: its name and its
children in declaration order. -/
inductive PNode where
  | mk (name : Str) (children : List PNode)

/-- Node name. -/
def PNode.name : PNode → Str
  | .mk n _ => n

/-- Node children. -/
def PNode.children : PNode → List PNode
  | .mk _ cs => cs

/-- `PyText.children_dict` followed by a lookup: the dictionary is built by
assigning `children_dict[childname] = child` in declaration order, so a later
child with the same name overwrites an earlier one. -/
def childrenDictLookup (cs : List PNode) (key : Str) : Option PNode :=
  cs.foldl (fun acc c => if c.name = key then some c else acc) none

/-- `re.split("\\.", target, maxsplit=1)` followed by padding with `""`:
the text before the first dot and the text after it (empty when there is no
dot). -/
def splitFirstDot (t : Str) : Str × Str :=
  match firstIdx ['.'] t with
  | some i => (t.take i, t.drop (i + 1))
  | none => (t, [])

/-- Errors raised by `jumpto` (`ValueError` in the source, with distinct
messages). -/
inductive JumpErr where
  | noParent
  | notAChild
deriving Repr, DecidableEq

/-- `PyText.jumpto(target)` on a zipper: `anc` is the ancestor stack (parent
first), `n` the current node.  An empty target returns the node itself; an
empty leading segment recurses into the parent; otherwise the segment is
resolved in `children_dict` (later duplicates shadowing earlier ones), then
against the node's own name, and failing both a "not a child" error is
raised. -/
def jumptoF : Nat → List PNode → PNode → Str → Except JumpErr (List PNode × PNode)
  | 0, _, _, _ => .error .notAChild
  | _ + 1, anc, n, [] => .ok (anc, n)
  | fuel + 1, anc, n, t =>
    let s0 := (splitFirstDot t).1
    let s1 := (splitFirstDot t).2
    if s0 = [] then
      match anc with
      | p :: rest => jumptoF fuel rest p s1
      | [] => .error .noParent
    else
      match childrenDictLookup n.children s0 with
      | some c => jumptoF fuel (n :: anc) c s1
      | none =>
        if n.name = s0 then jumptoF fuel anc n s1
        else .error .notAChild

/-- `ImportHistory` of `imports.py`.  The `where` field (owner module name)
is called `owner` here because `where` is reserved in Lean. -/
structure ImportHistory where
  owner : Str
  fro : Option Str
  name : Str
  asName : Option Str
  typeChecking : Bool
deriving Repr, DecidableEq

/-- `ImportHistory.__eq__`: `self.fro.startswith(".")` raises
`AttributeError` when `fro` is `None` (a plain `import x` record); a relative
`fro` compares unequal to everything; otherwise `fro` and `name` must both
match. -/
def ImportHistory.eq (a b : ImportHistory) : Except PyErr Bool :=
  match a.fro with
  | none => .error .attributeError
  | some f =>
    if f.headD ' ' = '.' then .ok false
    else .ok (decide (a.fro = b.fro ∧ a.name = b.name))

/-- "source_module is a relative import": it is present and starts with a
dot.  (Spec-side predicate used to state the equality claim.) -/
def isRelativeImport : Option Str → Bool
  | some (c :: _) => c = '.'
  | _ => false

/-- `for nline, _, group in real_findall(...)`: the elements produced by
`real_findall(..., linemode=True)` of `utils/re_extensions.py` are the pairs
`(nline, match)`, and Python raises `ValueError` when unpacking a 2-tuple
into three targets, whatever the element is. -/
def unpack3 (_ : Nat × SM) : Except PyErr (Nat × (Nat × Nat) × Str) :=
  .error .valueError

/-- The leaf branch of `PyText.findall` applied to the result list of
`real_findall`: unpack each element as `nline, _, group`, keep non-empty
groups as `(start_line + nline - 1, group)`. -/
def findallLeaf (startLine : Nat) (results : List (Nat × SM)) :
    Except PyErr (List (Nat × Str)) := do
  let l ← results.mapM unpack3
  return l.filterMap (fun r =>
    if r.2.2 = [] then none else some (startLine + r.1 - 1, r.2.2))

-- sanity checks
example :
    jumptoF 3 [] (.mk "f".toList [.mk "C".toList [.mk "m".toList []]])
        "C.m".toList
      = .ok ([.mk "C".toList [.mk "m".toList []],
              .mk "f".toList [.mk "C".toList [.mk "m".toList []]]],
             .mk "m".toList []) := by rfl
example :
    ImportHistory.eq ⟨"m".toList, some ".a".toList, "x".toList, none, false⟩
        ⟨"m".toList, some ".a".toList, "x".toList, none, false⟩
      = .ok false := by rfl
example :
    ImportHistory.eq ⟨"m".toList, none, "os".toList, none, false⟩
        ⟨"m".toList, none, "os".toList, none, false⟩
      = .error .attributeError := by rfl

/-- The simplest search step satisfying the contract: match exactly the
first character. -/
def oneCharSearch : ScanFn
  | [] => none
  | c :: _ => some (0, 1, [c])

/-!
## Claim theorems
-/

/-- **C1.**  Behaviour of the `SmartPattern` engine on the bracket-ignore
examples: with ignore set `"()"`, pattern `"a{}b"` matches `"ab"` (group
`"ab"`) and `"a(c)b"` (group `"a(c)b"`, splicing the balanced span) but not
`"a(b)c"`; a span whose depth never returns to 0 before a newline fails when
cross-line matching is off and succeeds when it is on.  However, with ignore
set `"()[]"` the engine does **not** match `"a(c)[c]b"` (the code consumes at
most one balanced span per marker, contradicting the claim and the
`SmartPattern` docstring); `"a(b)[b]c"` is rejected as claimed. -/
theorem smart_match_bracket_ignore_eval :
    smart_match litMatch ⟨"a{}b".toList, "()".toList, "{}".toList⟩ false "ab".toList
        = some (2, "ab".toList) ∧
    smart_match litMatch ⟨"a{}b".toList, "()".toList, "{}".toList⟩ false
        "a(c)b".toList = some (5, "a(c)b".toList) ∧
    smart_match litMatch ⟨"a{}b".toList, "()".toList, "{}".toList⟩ false
        "a(b)c".toList = none ∧
    smart_match litMatch ⟨"a{}b".toList, "()[]".toList, "{}".toList⟩ false
        "a(c)[c]b".toList = none ∧
    smart_match litMatch ⟨"a{}b".toList, "()[]".toList, "{}".toList⟩ false
        "a(b)[b]c".toList = none ∧
    smart_match litMatch ⟨"a{}b".toList, "()".toList, "{}".toList⟩ false
        "a(c\nc)b".toList = none ∧
    smart_match litMatch ⟨"a{}b".toList, "()".toList, "{}".toList⟩ true
        "a(c\nc)b".toList = some (7, "a(c\nc)b".toList) := by
  refine ⟨by decide, by decide, by decide, by decide, by decide, by decide, by decide⟩

/-- **C9 counterexample.**  The record of a plain `import os` statement has
`fro = None`; its source module trivially "matches" itself, its name matches,
and it is not a relative import, so the claimed equivalence says the record
compares equal to itself — but `__eq__` calls `None.startswith` and raises
`AttributeError` instead. -/
theorem importHistory_eq_none_counterexample :
    ImportHistory.eq ⟨"m".toList, none, "os".toList, none, false⟩
        ⟨"m".toList, none, "os".toList, none, false⟩ = .error .attributeError ∧
    isRelativeImport (none : Option Str) = false := by
  exact ⟨rfl, rfl⟩

/-- **C9 (amended).**  For records whose `source_module` is present, two
records compare equal iff their `fro` fields match, their `name` fields match
and the left record's `fro` is not a relative import; in particular a record
of a relative import never compares equal to anything.  (Records with absent
`fro` raise `AttributeError` instead, see the counterexample.) -/
theorem importHistory_eq_present_fro (a b : ImportHistory) (f : Str)
    (h : a.fro = some f) :
    ImportHistory.eq a b = .ok true ↔
      (a.fro = b.fro ∧ a.name = b.name ∧ isRelativeImport a.fro = false) := by
  obtain ⟨ao, af, an, aa, atc⟩ := a
  simp only at h
  subst h
  cases f with
  | nil =>
    constructor
    · intro hx
      simp [ImportHistory.eq] at hx
      exact ⟨by simp [hx.1], hx.2, rfl⟩
    · rintro ⟨h1, h2, -⟩
      simp only at h1 h2
      simp [ImportHistory.eq, ← h1, ← h2]
  | cons c rest =>
    by_cases hc : c = '.'
    · subst hc
      constructor
      · intro hx
        exfalso
        simp [ImportHistory.eq] at hx
      · rintro ⟨-, -, hrel⟩
        exfalso
        simp [isRelativeImport] at hrel
    · constructor
      · intro hx
        simp [ImportHistory.eq, hc] at hx
        exact ⟨by simp [hx.1], hx.2, by simp [isRelativeImport, hc]⟩
      · rintro ⟨h1, h2, -⟩
        simp only at h1 h2
        simp [ImportHistory.eq, hc, ← h1, ← h2]

/-- **C9 witness.** -/
theorem importHistory_eq_present_fro_witness :
    ImportHistory.eq ⟨"m".toList, some "np".toList, "x".toList, none, false⟩
        ⟨"n".toList, some "np".toList, "x".toList, some "y".toList, true⟩
        = .ok true ↔
      (some "np".toList = some "np".toList ∧ "x".toList = "x".toList ∧
        isRelativeImport (some "np".toList) = false) :=
  importHistory_eq_present_fro _ _ _ rfl

/-- **C5.**  A transaction tracks confirmation as a single boolean flip:
`confirm()` on an already-confirmed transaction raises (`TypeError`), not a
silent no-op; `rollback()` on a non-confirmed transaction raises; successful
`rollback()` flips the flag back so that a subsequent `confirm()` succeeds
again — the transaction is not destroyed. -/
theorem replacer_state_machine (r : Replacer) (d : Disk) :
    (r.confirmed = true → Replacer.confirm r d = .error .typeError) ∧
    (r.confirmed = false → ∀ f, Replacer.rollback f r d = .error .typeError) ∧
    (r.confirmed = true → ∀ f, ∃ i r' d',
      Replacer.rollback f r d = .ok (i, r', d') ∧ r'.confirmed = false ∧
      ∀ d₂, ∃ i₂ r₂ d₃, Replacer.confirm r' d₂ = .ok (i₂, r₂, d₃)) := by
  refine ⟨fun h => ?_, fun h f => ?_, fun h f => ?_⟩
  · simp [Replacer.confirm, h]
  · simp [Replacer.rollback, h]
  · refine ⟨(overwriteRun true f r.editors d).2, ⟨r.editors, false⟩,
      (overwriteRun true f r.editors d).1, ?_, rfl, fun d₂ => ?_⟩
    · simp [Replacer.rollback, h]
    · exact ⟨(overwriteRun false false r.editors d₂).2, ⟨r.editors, true⟩,
        (overwriteRun false false r.editors d₂).1, by simp [Replacer.confirm]⟩

/-- **C5 witness.** -/
theorem replacer_state_machine_witness :
    (Replacer.confirm ⟨[], true⟩ (fun _ => []) = .error .typeError) ∧
    (Replacer.rollback false ⟨[], false⟩ (fun _ => []) = .error .typeError) ∧
    (∃ i r' d', Replacer.rollback false ⟨[], true⟩ (fun _ => []) = .ok (i, r', d') ∧
      r'.confirmed = false ∧
      ∀ d₂, ∃ i₂ r₂ d₃, Replacer.confirm r' d₂ = .ok (i₂, r₂, d₃)) :=
  ⟨(replacer_state_machine ⟨[], true⟩ (fun _ => [])).1 rfl,
   (replacer_state_machine ⟨[], false⟩ (fun _ => [])).2.1 rfl false,
   (replacer_state_machine ⟨[], true⟩ (fun _ => [])).2.2 rfl false⟩

/-- **C4.**  On the failing input — a leaf with text `"abc"`, `start_line = 1`
and pattern `"b"` (widened to `".*b.*"` and searched in line mode) —
`real_findall` produces the correct data `[(1, match of line "abc")]`, but the
`for nline, _, group in real_findall(...)` loop of `PyText.findall` unpacks
each 2-tuple `(nline, match)` into three targets and therefore raises
`ValueError` instead of producing any Finding: `src/abc.py` expects the
3-tuples of the older `real_findall` while `src/utils/re_extensions.py`
returns 2-tuples. -/
theorem findall_leaf_unpack_valueerror :
    real_findall_line (lineWideSearch "b".toList) 4 "abc".toList
        = some [(1, ⟨0, 3, "abc".toList⟩)] ∧
    findallLeaf 1 [(1, ⟨0, 3, "abc".toList⟩)] = .error .valueError := by
  exact ⟨by decide, rfl⟩

lemma childrenDictLookup_acc (key : Str) (cs : List PNode) :
    ∀ acc, cs.foldl (fun acc c => if c.name = key then some c else acc) acc
      = match (cs.filter (fun c => c.name = key)).getLast? with
        | some x => some x
        | none => acc := by
  induction cs with
  | nil => intro acc; simp
  | cons c cs ih =>
    intro acc
    rw [List.foldl_cons, ih]
    by_cases hc : c.name = key
    · simp only [List.filter_cons, hc, decide_True, if_pos rfl, if_true]
      cases hfil : cs.filter (fun c => decide (c.name = key)) with
      | nil => simp [hfil]
      | cons y tl =>
        rw [List.getLast?_cons_cons]
        cases hl : (y :: tl).getLast? with
        | none => simp [List.getLast?_eq_none_iff] at hl
        | some x => rfl
    · have hfil : (c :: cs).filter (fun c => decide (c.name = key))
          = cs.filter (fun c => decide (c.name = key)) := by simp [hc]
      rw [hfil, if_neg hc]

/-- `children_dict` lookup resolves duplicate names to the **last** child with
that name: later declarations shadow earlier ones. -/
lemma childrenDictLookup_eq_getLast (cs : List PNode) (key : Str) :
    childrenDictLookup cs key = (cs.filter (fun c => c.name = key)).getLast? := by
  rw [childrenDictLookup, childrenDictLookup_acc]
  cases (cs.filter (fun c => c.name = key)).getLast? <;> rfl

lemma firstIdx_single_none {c : Char} {s : Str} (h : c ∉ s) :
    firstIdx [c] s = none := by
  induction s with
  | nil => rfl
  | cons a rest ih =>
    rw [firstIdx]
    have hca : ¬[c].isPrefixOf (a :: rest) = true := by
      simp only [List.isPrefixOf, Bool.and_eq_true, beq_iff_eq]
      rintro ⟨hce, -⟩
      exact h (hce ▸ List.mem_cons_self a rest)
    rw [if_neg hca, ih (fun hm => h (List.mem_cons_of_mem a hm))]
    rfl

/-- **C8 counterexample.**  The claim says the sentinel name `"NULL"` as a
target is always rejected with a "not a child" error.  But `jumpto` has no
sentinel check: content fragments are named `NULL` and appear among a file's
children (`PyFile.text_init` on raw text keeps the default path `NULL.py`,
so such a child's name is `"NULL"`), and resolving `"NULL"` on a node with
such a child simply returns the fragment. -/
theorem jumpto_null_counterexample :
    jumptoF 2 [] (.mk "f".toList [.mk "NULL".toList []]) "NULL".toList
      = .ok ([.mk "f".toList [.mk "NULL".toList []]], .mk "NULL".toList []) := by
  rfl

/-- **C8 (amended).**  `jumpto` resolution, with the sentinel clause removed
(the target `"NULL"` is resolved like any other name): an empty target
returns the node itself; a target with an empty leading segment (leading
separator) recurses into the parent when one exists; a dot-free target is
resolved among the children with a later declaration of a duplicated name
shadowing an earlier one, falling back to the node itself when the segment
equals its own name, and failing with the "not a child" error otherwise. -/
theorem jumpto_resolution :
    (∀ (f : Nat) (anc : List PNode) (n : PNode),
      jumptoF (f + 1) anc n [] = .ok (anc, n)) ∧
    (∀ (f : Nat) (anc : List PNode) (n : PNode) (t : Str),
      jumptoF (f + 1) anc n ('.' :: t)
        = match anc with
          | p :: rest => jumptoF f rest p t
          | [] => .error .noParent) ∧
    (∀ (f : Nat) (anc : List PNode) (n : PNode) (seg : Str),
      seg ≠ [] → '.' ∉ seg →
      jumptoF (f + 2) anc n seg
        = match (n.children.filter (fun c => c.name = seg)).getLast? with
          | some c => .ok (n :: anc, c)
          | none =>
            if n.name = seg then .ok (anc, n) else .error .notAChild) := by
  refine ⟨fun f anc n => rfl, fun f anc n t => ?_, fun f anc n seg hne hdot => ?_⟩
  · have hsplit : splitFirstDot ('.' :: t) = ([], t) := by
      simp [splitFirstDot, firstIdx, List.isPrefixOf]
    simp only [jumptoF, hsplit]
    cases anc <;> rfl
  · have hsplit : splitFirstDot seg = (seg, []) := by
      simp [splitFirstDot, firstIdx_single_none hdot]
    obtain ⟨c0, seg', rfl⟩ := List.exists_cons_of_ne_nil hne
    simp only [jumptoF, hsplit]
    rw [show childrenDictLookup (PNode.children n) (c0 :: seg')
        = ((PNode.children n).filter (fun c => c.name = c0 :: seg')).getLast? from
      childrenDictLookup_eq_getLast _ _]
    cases hl : ((PNode.children n).filter (fun c => c.name = c0 :: seg')).getLast? with
    | some c => rfl
    | none =>
      by_cases hn : n.name = c0 :: seg'
      · simp [hn]
      · simp [hn]

/-- **C8 witness**: resolving `"m"` on a node with two children named `"m"`
returns the later one (shadowing), via the resolution theorem. -/
theorem jumpto_resolution_witness :
    jumptoF 2 []
        (.mk "C".toList [.mk "m".toList [], .mk "m".toList [.mk "x".toList []]])
        "m".toList
      = .ok ([.mk "C".toList [.mk "m".toList [], .mk "m".toList [.mk "x".toList []]]],
             .mk "m".toList [.mk "x".toList []]) := by
  rw [jumpto_resolution.2.2 0 []
    (.mk "C".toList [.mk "m".toList [], .mk "m".toList [.mk "x".toList []]])
    "m".toList (by decide) (by decide)]
  rfl

/-- **C6.**  Staging Edit B `based_on` Edit A computes B's replacement over
A's `new_text` (no disk access appears in `stageBasedOn`); when B's
substitution count is positive A is marked superseded; confirming the
transaction `[A', B]` then writes B's `new_text` (plus the trailing newline
added by `write`) to the file and reports only that one write as successful:
A is skipped, so only the newest generation of the chain is materialized. -/
theorem chained_edit_materializes_latest (pf : PyFileRec) (d : Disk)
    (a : FileEditor) (subst : Str → Str × Nat)
    (hcnt : (subst a.newText).2 > 0)
    (hdisk : pystrip (d pf.path) = pf.text) :
    (stageBasedOn a pf subst).2.newText = (subst a.newText).1 ∧
    (stageBasedOn a pf subst).1.isBasedOn = true ∧
    ∃ r' d',
      Replacer.confirm ⟨[(stageBasedOn a pf subst).1, (stageBasedOn a pf subst).2],
          false⟩ d
        = .ok (⟨[pf.path], []⟩, r', d') ∧
      d' pf.path = (subst a.newText).1 ++ "\n".toList := by
  have hpos : ((subst a.newText).2 > 0) = True := eq_true hcnt
  refine ⟨rfl, ?_, ?_⟩
  · simp [stageBasedOn, hcnt]
  · refine ⟨⟨[(stageBasedOn a pf subst).1, (stageBasedOn a pf subst).2], true⟩,
      Disk.update d pf.path ((subst a.newText).1 ++ "\n".toList), ?_, ?_⟩
    · simp only [Replacer.confirm, Bool.false_eq_true, if_false, reduceIte]
      have hb1 : (stageBasedOn a pf subst).1.isBasedOn = true := by
        simp [stageBasedOn, hcnt]
      have hcmp : (stageBasedOn a pf subst).2.compare d pf.text = true := by
        simp [stageBasedOn, FileEditor.compare, FileEditor.read, hdisk]
      simp [overwriteRun, hb1, stageBasedOn, FileEditor.compare, FileEditor.read,
        hdisk, FileEditor.write, Disk.update, hcnt]
    · simp [Disk.update]

/-- **C6 witness.** -/
theorem chained_edit_materializes_latest_witness :
    (stageBasedOn ⟨"f".toList, ⟨"f".toList, "a".toList⟩, true, "b".toList, false⟩
        ⟨"f".toList, "a".toList⟩ (fun s => (s ++ "!".toList, 1))).2.newText
      = "b!".toList ∧
    (stageBasedOn ⟨"f".toList, ⟨"f".toList, "a".toList⟩, true, "b".toList, false⟩
        ⟨"f".toList, "a".toList⟩ (fun s => (s ++ "!".toList, 1))).1.isBasedOn = true ∧
    ∃ r' d',
      Replacer.confirm
          ⟨[(stageBasedOn ⟨"f".toList, ⟨"f".toList, "a".toList⟩, true, "b".toList,
              false⟩ ⟨"f".toList, "a".toList⟩ (fun s => (s ++ "!".toList, 1))).1,
            (stageBasedOn ⟨"f".toList, ⟨"f".toList, "a".toList⟩, true, "b".toList,
              false⟩ ⟨"f".toList, "a".toList⟩ (fun s => (s ++ "!".toList, 1))).2],
            false⟩ (fun _ => "a".toList)
        = .ok (⟨["f".toList], []⟩, r', d') ∧
      d' "f".toList = "b!".toList ++ "\n".toList :=
  chained_edit_materializes_latest ⟨"f".toList, "a".toList⟩ (fun _ => "a".toList)
    ⟨"f".toList, ⟨"f".toList, "a".toList⟩, true, "b".toList, false⟩
    (fun s => (s ++ "!".toList, 1)) (by decide) (by decide)

lemma overwriteRun_preserve (rb fc : Bool) :
    ∀ (es : List FileEditor) (d : Disk) (p : Str),
      (∀ x ∈ es, x.path ≠ p) → (overwriteRun rb fc es d).1 p = d p := by
  intro es
  induction es with
  | nil => intro d p _; rfl
  | cons e es ih =>
    intro d p h
    have he : e.path ≠ p := h e (List.mem_cons_self e es)
    have hes : ∀ x ∈ es, x.path ≠ p := fun x hx => h x (List.mem_cons_of_mem e hx)
    rw [overwriteRun]
    by_cases hb : e.isBasedOn
    · simp only [hb, if_pos rfl, if_true]
      exact ih d p hes
    · simp only [hb, if_false, Bool.false_eq_true, reduceIte]
      by_cases hcmp : (fc || e.compare d (if rb then e.newText else e.pyfile.text)) = true
      · rw [if_pos hcmp]
        show (overwriteRun rb fc es _).1 p = d p
        rw [ih _ p hes]
        simp [FileEditor.write, Disk.update, hb, if_neg (Ne.symm he)]
      · rw [if_neg hcmp]
        exact ih d p hes

lemma overwriteRun_editor (rb fc : Bool) :
    ∀ (es : List FileEditor) (d : Disk) (e : FileEditor),
      e ∈ es → e.isBasedOn = false → e.overwrite = true →
      (es.map FileEditor.path).Nodup →
      ((fc = true ∨ pystrip (d e.path) = (if rb then e.newText else e.pyfile.text)) →
        (overwriteRun rb fc es d).1 e.path
            = (if rb then e.pyfile.text else e.newText) ++ "\n".toList ∧
        e.path ∈ (overwriteRun rb fc es d).2.successful) ∧
      (fc = false →
        pystrip (d e.path) ≠ (if rb then e.newText else e.pyfile.text) →
        (overwriteRun rb fc es d).1 e.path = d e.path ∧
        e.path ∈ (overwriteRun rb fc es d).2.failed) := by
  intro es
  induction es with
  | nil => intro d e hmem _ _ _; exact absurd hmem (List.not_mem_nil e)
  | cons a es ih =>
    intro d e hmem hbo how hnd
    have hnd' : (es.map FileEditor.path).Nodup := (List.nodup_cons.mp hnd).2
    rcases List.mem_cons.mp hmem with rfl | hmem'
    · have hnin : e.path ∉ es.map FileEditor.path := (List.nodup_cons.mp hnd).1
      have hpres : ∀ x ∈ es, x.path ≠ e.path := fun x hx heq =>
        hnin (heq ▸ List.mem_map_of_mem FileEditor.path hx)
      constructor
      · intro hcond
        have hcmp : (fc || e.compare d (if rb then e.newText else e.pyfile.text))
            = true := by
          rcases hcond with hfc | heq
          · simp [hfc]
          · simp [FileEditor.compare, how, FileEditor.read, heq]
        rw [overwriteRun, if_neg (by simp [hbo]), if_pos hcmp]
        constructor
        · show (overwriteRun rb fc es
              (e.write (if rb then e.pyfile.text else e.newText) d)).1 e.path = _
          rw [overwriteRun_preserve rb fc es _ e.path hpres]
          simp [FileEditor.write, hbo, Disk.update]
        · exact List.mem_cons_self _ _
      · intro hfc hneq
        have hcmp : (fc || e.compare d (if rb then e.newText else e.pyfile.text))
            = false := by
          simp [hfc, FileEditor.compare, how, FileEditor.read, hneq]
        rw [overwriteRun, if_neg (by simp [hbo]), if_neg (by simp [hcmp])]
        exact ⟨overwriteRun_preserve rb fc es d e.path hpres,
          List.mem_cons_self _ _⟩
    · have hne : a.path ≠ e.path := fun heq =>
        (List.nodup_cons.mp hnd).1 (heq ▸ List.mem_map_of_mem FileEditor.path hmem')
      rw [overwriteRun]
      by_cases hab : a.isBasedOn
      · rw [if_pos hab]
        exact ih d e hmem' hbo how hnd'
      · by_cases hacmp :
          (fc || a.compare d (if rb then a.newText else a.pyfile.text)) = true
        · rw [if_neg hab, if_pos hacmp]
          have hd1 : (a.write (if rb then a.pyfile.text else a.newText) d) e.path
              = d e.path := by
            by_cases hab2 : a.isBasedOn
            · simp [FileEditor.write, hab2]
            · simp [FileEditor.write, hab2, Disk.update, if_neg (Ne.symm hne)]
          have ih1 := ih (a.write (if rb then a.pyfile.text else a.newText) d) e
            hmem' hbo how hnd'
          rw [hd1] at ih1
          exact ⟨fun hcond => ⟨(ih1.1 hcond).1,
              List.mem_cons_of_mem _ (ih1.1 hcond).2⟩,
            fun hfc hneq => ⟨(ih1.2 hfc hneq).1, (ih1.2 hfc hneq).2⟩⟩
        · rw [if_neg hab, if_neg hacmp]
          have ih1 := ih d e hmem' hbo how hnd'
          exact ⟨fun hcond => ⟨(ih1.1 hcond).1, (ih1.1 hcond).2⟩,
            fun hfc hneq => ⟨(ih1.2 hfc hneq).1,
              List.mem_cons_of_mem _ (ih1.2 hfc hneq).2⟩⟩

/-- **C2.**  For a staged Edit `e` (in overwrite mode, not superseded) of a
transaction with distinct target paths: `confirm()` re-reads the file and
compares it to the recorded original text (`pyfile.text`); on a mismatch the
write is skipped, the path is recorded under `failed` and the on-disk content
is unchanged, otherwise `new_text` is written (with the trailing newline of
`write`) and the path recorded under `successful`.  `rollback(force=False)`
performs the symmetric check against `new_text` before restoring the original
text; `rollback(force=True)` overwrites unconditionally.  Conflicts are
returned in the `{successful, failed}` map — the run itself never raises. -/
theorem confirm_rollback_conflict_check (r : Replacer) (d : Disk) (e : FileEditor)
    (hmem : e ∈ r.editors) (hbo : e.isBasedOn = false) (how : e.overwrite = true)
    (hnd : (r.editors.map FileEditor.path).Nodup) :
    (r.confirmed = false →
      ∃ i r' d', Replacer.confirm r d = .ok (i, r', d') ∧
        (pystrip (d e.path) = e.pyfile.text →
          d' e.path = e.newText ++ "\n".toList ∧ e.path ∈ i.successful) ∧
        (pystrip (d e.path) ≠ e.pyfile.text →
          d' e.path = d e.path ∧ e.path ∈ i.failed)) ∧
    (r.confirmed = true →
      (∃ i r' d', Replacer.rollback false r d = .ok (i, r', d') ∧
        (pystrip (d e.path) = e.newText →
          d' e.path = e.pyfile.text ++ "\n".toList ∧ e.path ∈ i.successful) ∧
        (pystrip (d e.path) ≠ e.newText →
          d' e.path = d e.path ∧ e.path ∈ i.failed)) ∧
      (∃ i r' d', Replacer.rollback true r d = .ok (i, r', d') ∧
        d' e.path = e.pyfile.text ++ "\n".toList ∧ e.path ∈ i.successful)) := by
  have hc := overwriteRun_editor false false r.editors d e hmem hbo how hnd
  have hrb := overwriteRun_editor true false r.editors d e hmem hbo how hnd
  have hrf := overwriteRun_editor true true r.editors d e hmem hbo how hnd
  refine ⟨fun hcf => ?_, fun hct => ⟨?_, ?_⟩⟩
  · refine ⟨(overwriteRun false false r.editors d).2, ⟨r.editors, true⟩,
      (overwriteRun false false r.editors d).1, by simp [Replacer.confirm, hcf],
      fun heq => ⟨(hc.1 (Or.inr heq)).1, (hc.1 (Or.inr heq)).2⟩,
      fun hneq => ⟨(hc.2 rfl hneq).1, (hc.2 rfl hneq).2⟩⟩
  · refine ⟨(overwriteRun true false r.editors d).2, ⟨r.editors, false⟩,
      (overwriteRun true false r.editors d).1, by simp [Replacer.rollback, hct],
      fun heq => ⟨(hrb.1 (Or.inr heq)).1, (hrb.1 (Or.inr heq)).2⟩,
      fun hneq => ⟨(hrb.2 rfl hneq).1, (hrb.2 rfl hneq).2⟩⟩
  · exact ⟨(overwriteRun true true r.editors d).2, ⟨r.editors, false⟩,
      (overwriteRun true true r.editors d).1, by simp [Replacer.rollback, hct],
      (hrf.1 (Or.inl rfl)).1, (hrf.1 (Or.inl rfl)).2⟩

/-- **C2 witness.** -/
theorem confirm_rollback_conflict_check_witness :
    ∃ i r' d',
      Replacer.confirm ⟨[⟨"f".toList, ⟨"f".toList, "old".toList⟩, true,
          "new".toList, false⟩], false⟩ (fun _ => "old".toList) = .ok (i, r', d') ∧
      d' "f".toList = "new".toList ++ "\n".toList ∧ "f".toList ∈ i.successful := by
  have h := (confirm_rollback_conflict_check
      ⟨[⟨"f".toList, ⟨"f".toList, "old".toList⟩, true, "new".toList, false⟩], false⟩
      (fun _ => "old".toList)
      ⟨"f".toList, ⟨"f".toList, "old".toList⟩, true, "new".toList, false⟩
      (List.mem_cons_self _ _) rfl rfl (by decide)).1 rfl
  obtain ⟨i, r', d', h1, h2, -⟩ := h
  exact ⟨i, r', d', h1, (h2 (by decide)).1, (h2 (by decide)).2⟩

lemma smartSubGo_isSome (search : ScanFn) (repl : Nat × Nat × Str → Str) :
    ∀ (fuel : Nat) (s acc : Str) (count : Int), s.length < fuel →
      (smartSubGo search repl fuel acc s count).isSome = true := by
  intro fuel
  induction fuel with
  | zero => intro s acc count h; exact absurd h (Nat.not_lt_zero _)
  | succ f ih =>
    intro s acc count h
    rw [smartSubGo]
    cases hsr : search s with
    | none => rfl
    | some m =>
      simp only
      by_cases h0 : s = []
      · rw [if_pos h0]; rfl
      · rw [if_neg h0]
        have hlen : 1 ≤ s.length := List.length_pos.mpr h0
        by_cases hc : count - 1 = 0
        · rw [if_pos hc]; rfl
        · rw [if_neg hc]
          by_cases he : m.2.1 = 0
          · rw [if_pos he]
            exact ih _ _ _ (by rw [List.length_drop]; omega)
          · rw [if_neg he]
            have hge : 1 ≤ m.2.1 := Nat.one_le_iff_ne_zero.mpr he
            exact ih _ _ _ (by rw [List.length_drop]; omega)

lemma smartSubGo_fuel_eq (search : ScanFn) (repl : Nat × Nat × Str → Str) :
    ∀ (f₁ f₂ : Nat) (s acc : Str) (count : Int), s.length < f₁ → s.length < f₂ →
      smartSubGo search repl f₁ acc s count
        = smartSubGo search repl f₂ acc s count := by
  intro f₁
  induction f₁ with
  | zero => intro f₂ s acc count h _; exact absurd h (Nat.not_lt_zero _)
  | succ f ih =>
    intro f₂ s acc count h1 h2
    cases f₂ with
    | zero => exact absurd h2 (Nat.not_lt_zero _)
    | succ f2 =>
      rw [smartSubGo, smartSubGo]
      cases hsr : search s with
      | none => rfl
      | some m =>
        simp only
        by_cases h0 : s = []
        · rw [if_pos h0, if_pos h0]
        · rw [if_neg h0, if_neg h0]
          have hlen : 1 ≤ s.length := List.length_pos.mpr h0
          by_cases hc : count - 1 = 0
          · rw [if_pos hc, if_pos hc]
          · rw [if_neg hc, if_neg hc]
            by_cases he : m.2.1 = 0
            · rw [if_pos he, if_pos he]
              exact ih _ _ _ _ (by rw [List.length_drop]; omega)
                (by rw [List.length_drop]; omega)
            · rw [if_neg he, if_neg he]
              have hge : 1 ≤ m.2.1 := Nat.one_le_iff_ne_zero.mpr he
              exact ih _ _ _ _ (by rw [List.length_drop]; omega)
                (by rw [List.length_drop]; omega)

lemma realFindallLineGo_isSome (search : ScanFn) :
    ∀ (fuel nline linePos : Nat) (s : Str) (acc : List (Nat × SM)),
      s.length < fuel →
      (realFindallLineGo search fuel nline linePos s acc).isSome = true := by
  intro fuel
  induction fuel with
  | zero => intro _ _ s _ h; exact absurd h (Nat.not_lt_zero _)
  | succ f ih =>
    intro nline linePos s acc h
    rw [realFindallLineGo]
    cases hsr : search s with
    | none => rfl
    | some m =>
      obtain ⟨st, en, g⟩ := m
      simp only
      by_cases h0 : s.length = 0
      · rw [if_pos h0]; rfl
      · rw [if_neg h0]
        by_cases he : en = 0
        · rw [if_pos he]
          exact ih _ _ _ _ (by rw [List.length_drop]; omega)
        · rw [if_neg he]
          have hge : 1 ≤ en := Nat.one_le_iff_ne_zero.mpr he
          exact ih _ _ _ _ (by rw [List.length_drop]; omega)

lemma realFindallLineGo_fuel_eq (search : ScanFn) :
    ∀ (f₁ f₂ nline linePos : Nat) (s : Str) (acc : List (Nat × SM)),
      s.length < f₁ → s.length < f₂ →
      realFindallLineGo search f₁ nline linePos s acc
        = realFindallLineGo search f₂ nline linePos s acc := by
  intro f₁
  induction f₁ with
  | zero => intro _ _ _ s _ h _; exact absurd h (Nat.not_lt_zero _)
  | succ f ih =>
    intro f₂ nline linePos s acc h1 h2
    cases f₂ with
    | zero => exact absurd h2 (Nat.not_lt_zero _)
    | succ f2 =>
      rw [realFindallLineGo, realFindallLineGo]
      cases hsr : search s with
      | none => rfl
      | some m =>
        obtain ⟨st, en, g⟩ := m
        simp only
        by_cases h0 : s.length = 0
        · rw [if_pos h0, if_pos h0]
        · rw [if_neg h0, if_neg h0]
          by_cases he : en = 0
          · rw [if_pos he, if_pos he]
            exact ih _ _ _ _ _ (by rw [List.length_drop]; omega)
              (by rw [List.length_drop]; omega)
          · rw [if_neg he, if_neg he]
            have hge : 1 ≤ en := Nat.one_le_iff_ne_zero.mpr he
            exact ih _ _ _ _ _ (by rw [List.length_drop]; omega)
              (by rw [List.length_drop]; omega)

lemma realFindallPosGo_isSome (search : ScanFn) :
    ∀ (fuel totalPos : Nat) (s : Str) (acc : List SM), s.length < fuel →
      (realFindallPosGo search fuel totalPos s acc).isSome = true := by
  intro fuel
  induction fuel with
  | zero => intro _ s _ h; exact absurd h (Nat.not_lt_zero _)
  | succ f ih =>
    intro totalPos s acc h
    rw [realFindallPosGo]
    cases hsr : search s with
    | none => rfl
    | some m =>
      obtain ⟨st, en, g⟩ := m
      simp only
      by_cases h0 : s.length = 0
      · rw [if_pos h0]; rfl
      · rw [if_neg h0]
        by_cases he : en = 0
        · rw [if_pos he]
          exact ih _ _ _ (by rw [List.length_drop]; omega)
        · rw [if_neg he]
          have hge : 1 ≤ en := Nat.one_le_iff_ne_zero.mpr he
          exact ih _ _ _ (by rw [List.length_drop]; omega)

lemma realFindallPosGo_fuel_eq (search : ScanFn) :
    ∀ (f₁ f₂ totalPos : Nat) (s : Str) (acc : List SM),
      s.length < f₁ → s.length < f₂ →
      realFindallPosGo search f₁ totalPos s acc
        = realFindallPosGo search f₂ totalPos s acc := by
  intro f₁
  induction f₁ with
  | zero => intro _ _ s _ h _; exact absurd h (Nat.not_lt_zero _)
  | succ f ih =>
    intro f₂ totalPos s acc h1 h2
    cases f₂ with
    | zero => exact absurd h2 (Nat.not_lt_zero _)
    | succ f2 =>
      rw [realFindallPosGo, realFindallPosGo]
      cases hsr : search s with
      | none => rfl
      | some m =>
        obtain ⟨st, en, g⟩ := m
        simp only
        by_cases h0 : s.length = 0
        · rw [if_pos h0, if_pos h0]
        · rw [if_neg h0, if_neg h0]
          by_cases he : en = 0
          · rw [if_pos he, if_pos he]
            exact ih _ _ _ _ (by rw [List.length_drop]; omega)
              (by rw [List.length_drop]; omega)
          · rw [if_neg he, if_neg he]
            have hge : 1 ≤ en := Nat.one_le_iff_ne_zero.mpr he
            exact ih _ _ _ _ (by rw [List.length_drop]; omega)
              (by rw [List.length_drop]; omega)

/-- **C3.**  For every search step, replacement, count limit and input
string, `smart_sub` and `real_findall` (both modes) terminate with the scan
bounded by the input length: fuel `length + 1` — one loop iteration per input
character plus the final step — always suffices (the zero-width-match branch
consumes exactly one character, every other branch at least one), and giving
any more fuel does not change the result. -/
theorem zero_width_forward_progress (search : ScanFn)
    (repl : Nat × Nat × Str → Str) (count : Int) (s : Str) :
    ((smart_sub search repl count (s.length + 1) s).isSome = true ∧
      ∀ k, smart_sub search repl count (s.length + 1 + k) s
        = smart_sub search repl count (s.length + 1) s) ∧
    ((real_findall_line search (s.length + 1) s).isSome = true ∧
      ∀ k, real_findall_line search (s.length + 1 + k) s
        = real_findall_line search (s.length + 1) s) ∧
    ((real_findall_pos search (s.length + 1) s).isSome = true ∧
      ∀ k, real_findall_pos search (s.length + 1 + k) s
        = real_findall_pos search (s.length + 1) s) := by
  have hlt : s.length < s.length + 1 := Nat.lt_succ_self _
  have hlt2 : ∀ k, s.length < s.length + 1 + k := fun k => by omega
  refine ⟨⟨?_, fun k => ?_⟩, ⟨?_, fun k => ?_⟩, ?_, fun k => ?_⟩
  · rw [smart_sub]
    by_cases hc : count < 0
    · rw [if_pos hc]; rfl
    · rw [if_neg hc]
      exact smartSubGo_isSome search repl _ _ _ _ hlt
  · rw [smart_sub, smart_sub]
    by_cases hc : count < 0
    · rw [if_pos hc, if_pos hc]
    · rw [if_neg hc, if_neg hc]
      exact smartSubGo_fuel_eq search repl _ _ _ _ _ (hlt2 k) hlt
  · exact realFindallLineGo_isSome search _ _ _ _ _ hlt
  · exact realFindallLineGo_fuel_eq search _ _ _ _ _ _ (hlt2 k) hlt
  · exact realFindallPosGo_isSome search _ _ _ _ hlt
  · exact realFindallPosGo_fuel_eq search _ _ _ _ _ (hlt2 k) hlt

lemma join_reverse_lastAdd (t : Str) (l : List Str) :
    ((lastAdd t l).reverse).flatten = (l.reverse).flatten ++ t := by
  cases l with
  | nil => simp [lastAdd]
  | cons h tl => simp [lastAdd]

lemma join_reverse_cons (g : Str) (l : List Str) :
    ((g :: l).reverse).flatten = (l.reverse).flatten ++ g := by
  simp

lemma take_extract_drop {st en : Nat} (s : Str) (h : st ≤ en) :
    s.take st ++ ((s.take en).drop st ++ s.drop en) = s := by
  have h1 : s.take st = (s.take en).take st := by
    rw [List.take_take, Nat.min_eq_left h]
  rw [h1, ← List.append_assoc, List.take_append_drop, List.take_append_drop]

lemma rsplitGo_join (search : ScanFn) (hs : ScanSpec search) :
    ∀ (fuel : Nat) (s : Str) (splitsRev : List Str) (stored : Str) (mx : Int),
      s.length < fuel →
      ∃ l, rsplitGo search fuel splitsRev stored s (search s) mx = some l ∧
        l.flatten = (splitsRev.reverse).flatten ++ stored ++ s := by
  intro fuel
  induction fuel with
  | zero => intro s _ _ _ h; exact absurd h (Nat.not_lt_zero _)
  | succ f ih =>
    intro s splitsRev stored mx h
    cases hsr : search s with
    | none =>
      cases s with
      | nil =>
        exact ⟨_, rfl, by simp [join_reverse_lastAdd]⟩
      | cons c s' =>
        exact ⟨_, rfl, by simp [join_reverse_lastAdd]⟩
    | some m =>
      obtain ⟨st, en, g⟩ := m
      obtain ⟨hse, hen, hg⟩ := hs s st en g hsr
      cases s with
      | nil =>
        refine ⟨_, rfl, ?_⟩
        simp [join_reverse_lastAdd]
      | cons c s' =>
        rw [rsplitGo]
        by_cases he : en = 0
        · have hst : st = 0 := by omega
          have hgnil : g = [] := by rw [hg, he]; simp
          rw [if_pos he]
          by_cases hmx : mx - 1 = 0
          · rw [if_pos hmx]
            refine ⟨_, rfl, ?_⟩
            rw [join_reverse_lastAdd, join_reverse_cons, join_reverse_lastAdd, hgnil]
            simp
          · rw [if_neg hmx]
            have hlen : s'.length < f := by
              have : (c :: s').length = s'.length + 1 := rfl
              omega
            obtain ⟨l, hl, hj⟩ := ih s' (g :: lastAdd stored splitsRev) [c] (mx - 1)
              hlen
            refine ⟨l, hl, ?_⟩
            rw [hj, join_reverse_cons, join_reverse_lastAdd, hgnil]
            simp
        · rw [if_neg he]
          have hge : 1 ≤ en := Nat.one_le_iff_ne_zero.mpr he
          by_cases hmx : mx - 1 = 0
          · rw [if_pos hmx]
            refine ⟨_, rfl, ?_⟩
            rw [join_reverse_lastAdd, join_reverse_cons, join_reverse_lastAdd, hg]
            have := take_extract_drop (c :: s') hse
            simp only [List.append_assoc]
            rw [this]
          · rw [if_neg hmx]
            have hlen : ((c :: s').drop en).length < f := by
              rw [List.length_drop]
              have : (c :: s').length = s'.length + 1 := rfl
              omega
            obtain ⟨l, hl, hj⟩ := ih ((c :: s').drop en)
              (g :: lastAdd (stored ++ (c :: s').take st) splitsRev) [] (mx - 1) hlen
            refine ⟨l, hl, ?_⟩
            rw [hj, join_reverse_cons, join_reverse_lastAdd, hg]
            have := take_extract_drop (c :: s') hse
            simp only [List.append_assoc, List.nil_append]
            rw [this]

/-- **C10.**  For every search step satisfying the span/group contract of the
pattern engines (`re.search` and `smart_search` both report a span inside the
string with the group equal to the spanned text), every maxsplit value and
every input string, concatenating the list returned by the delimiter-keep-
right split `rsplit` yields exactly the input: the split loses no characters
and invents none. -/
theorem rsplit_preserves_text (search : ScanFn) (hs : ScanSpec search)
    (mx : Int) (s : Str) :
    ∃ l, rsplit search mx (s.length + 1) s = some l ∧ l.flatten = s := by
  rw [rsplit]
  by_cases hm : mx < 0
  · rw [if_pos hm]; exact ⟨[s], rfl, by simp⟩
  · rw [if_neg hm]
    cases hsr : search s with
    | none => exact ⟨[s], rfl, by simp⟩
    | some m =>
      have hgo := rsplitGo_join search hs (s.length + 1) s [[]] [] mx
        (Nat.lt_succ_self _)
      rw [hsr] at hgo
      obtain ⟨l, hl, hj⟩ := hgo
      exact ⟨l, hl, by simpa using hj⟩

lemma oneCharSearch_spec : ScanSpec oneCharSearch := by
  intro s st en g hx
  cases s with
  | nil => simp [oneCharSearch] at hx
  | cons c rest =>
    simp only [oneCharSearch, Option.some.injEq] at hx
    obtain ⟨rfl, rfl, rfl⟩ := Prod.mk.injEq .. ▸ hx
    refine ⟨Nat.zero_le _, by simp, by simp⟩

/-- **C10 witness.** -/
theorem rsplit_preserves_text_witness :
    ∃ l, rsplit oneCharSearch 0 ("abc".toList.length + 1) "abc".toList = some l ∧
      l.flatten = "abc".toList :=
  rsplit_preserves_text oneCharSearch oneCharSearch_spec 0 "abc".toList

lemma firstIdx_some_facts {p s : Str} {i : Nat} (h : firstIdx p s = some i) :
    p.isPrefixOf (s.drop i) = true ∧ ∀ j < i, p.isPrefixOf (s.drop j) = false := by
  induction s generalizing i with
  | nil =>
    rw [firstIdx] at h
    by_cases hp : p.isPrefixOf ([] : Str) = true
    · rw [if_pos hp] at h
      obtain rfl : i = 0 := (Option.some.inj h).symm
      exact ⟨hp, fun j hj => absurd hj (Nat.not_lt_zero _)⟩
    · rw [if_neg hp] at h; exact absurd h (by simp)
  | cons a rest ih =>
    rw [firstIdx] at h
    by_cases hp : p.isPrefixOf (a :: rest) = true
    · rw [if_pos hp] at h
      obtain rfl : i = 0 := (Option.some.inj h).symm
      exact ⟨hp, fun j hj => absurd hj (Nat.not_lt_zero _)⟩
    · rw [if_neg hp] at h
      obtain ⟨i', hi', rfl⟩ := Option.map_eq_some'.mp h
      obtain ⟨h1, h2⟩ := ih hi'
      refine ⟨h1, fun j hj => ?_⟩
      cases j with
      | zero => simp only [Bool.not_eq_true] at hp; simpa using hp
      | succ j' => exact h2 j' (by omega)

lemma firstIdx_none_facts {p s : Str} (h : firstIdx p s = none) :
    ∀ j, p.isPrefixOf (s.drop j) = false := by
  induction s with
  | nil =>
    rw [firstIdx] at h
    intro j
    by_cases hp : p.isPrefixOf ([] : Str) = true
    · rw [if_pos hp] at h; exact absurd h (by simp)
    · simp only [Bool.not_eq_true] at hp; simpa using hp
  | cons a rest ih =>
    rw [firstIdx] at h
    by_cases hp : p.isPrefixOf (a :: rest) = true
    · rw [if_pos hp] at h; exact absurd h (by simp)
    · rw [if_neg hp] at h
      have hr : firstIdx p rest = none := by
        cases hx : firstIdx p rest with
        | none => rfl
        | some v => rw [hx] at h; exact absurd h (by simp)
      intro j
      cases j with
      | zero => simp only [Bool.not_eq_true] at hp; simpa using hp
      | succ j' => exact ih hr j'

lemma firstIdx_lt_length {p s : Str} {i : Nat} (hs : s ≠ [])
    (h : firstIdx p s = some i) : i < s.length := by
  induction s generalizing i with
  | nil => exact absurd rfl hs
  | cons a rest ih =>
    rw [firstIdx] at h
    by_cases hp : p.isPrefixOf (a :: rest) = true
    · rw [if_pos hp] at h
      obtain rfl : i = 0 := (Option.some.inj h).symm
      simp
    · rw [if_neg hp] at h
      obtain ⟨i', hi', rfl⟩ := Option.map_eq_some'.mp h
      cases rest with
      | nil =>
        rw [firstIdx] at hi'
        by_cases hq : p.isPrefixOf ([] : Str) = true
        · have : p = [] := by simpa using hq
          subst this
          exact absurd (by simp) hp
        · rw [if_neg hq] at hi'; exact absurd hi' (by simp)
      | cons b rest' =>
        have := ih (by simp) hi'
        simpa using Nat.succ_lt_succ this

lemma stripCaret_of_caretFree {s : Str} (h : '^' ∉ s) : stripCaret s = s := by
  cases s with
  | nil => rfl
  | cons c rest =>
    have hc : c ≠ '^' := fun hcc => h (hcc ▸ List.mem_cons_self c rest)
    simp [stripCaret, hc]

lemma litSearch_of_caretFree {pat : Str} (h : '^' ∉ pat) (s : Str) :
    litSearch pat s = (firstIdx pat s).map (fun i => (i, i + pat.length)) := by
  cases pat with
  | nil => rfl
  | cons c p' =>
    have hc : c ≠ '^' := fun hcc => h (hcc ▸ List.mem_cons_self c p')
    simp [litSearch, hc]

lemma splitOnF_ne_nil (sep : Str) (fuel : Nat) (s : Str) :
    splitOnF sep fuel s ≠ [] := by
  cases fuel with
  | zero => simp [splitOnF]
  | succ f =>
    rw [splitOnF]
    cases firstIdx sep s with
    | none => simp
    | some i => simp

lemma splitOn_of_contains {sep s : Str} {i : Nat} (h : firstIdx sep s = some i) :
    ∃ tl, splitOn sep s = s.take i :: tl ∧ tl ≠ [] := by
  rw [splitOn, splitOnF, h]
  exact ⟨_, rfl, splitOnF_ne_nil _ _ _⟩

lemma takeBefore_of_firstIdx {sep s : Str} {i : Nat} (h : firstIdx sep s = some i) :
    takeBefore sep s = s.take i := by
  rw [takeBefore, h]

lemma caretFree_takeBefore {sep s : Str} (h : '^' ∉ s) :
    '^' ∉ takeBefore sep s := by
  intro hmem
  rw [takeBefore] at hmem
  cases hx : firstIdx sep s with
  | none => rw [hx] at hmem; exact h hmem
  | some i => rw [hx] at hmem; exact h (List.take_subset i s hmem)

/-- If the first marker-delimited segment of the pattern does not match at
the start of `s`, `smart_match` fails: the engine's first anchored partial
match is exactly that segment. -/
lemma smart_match_requires_seg0 {p : SPat} {cl : Bool} {s : Str}
    (hmark : containsSub p.markIgnore p.pattern = true)
    (hcf : '^' ∉ p.pattern)
    (hnp : (takeBefore p.markIgnore p.pattern).isPrefixOf s = false) :
    smart_match litMatch p cl s = none := by
  obtain ⟨i, hi⟩ := Option.isSome_iff_exists.mp hmark
  obtain ⟨tl, hsplit, htl⟩ := splitOn_of_contains hi
  rw [smart_match, if_pos hmark, hsplit]
  have hdl : (p.pattern.take i :: tl).dropLast
      = (p.pattern.take i) :: tl.dropLast := by
    cases tl with
    | nil => exact absurd rfl htl
    | cons b tl' => rfl
  have hnp' : (p.pattern.take i).isPrefixOf s = false := by
    rw [← takeBefore_of_firstIdx hi]; exact hnp
  have hcf0 : '^' ∉ p.pattern.take i := by
    rw [← takeBefore_of_firstIdx hi]; exact caretFree_takeBefore hcf
  simp only [hdl, smartMatchGo, List.nil_append]
  simp [litMatch, stripCaret_of_caretFree hcf0, hnp']

lemma naiveGo_of_no_seg0 {p : SPat} {cl : Bool}
    (hmark : containsSub p.markIgnore p.pattern = true)
    (hcf : '^' ∉ p.pattern) :
    ∀ (fuel off : Nat) (s : Str),
      (∀ j, (takeBefore p.markIgnore p.pattern).isPrefixOf (s.drop j) = false) →
      naiveGo litMatch p cl fuel off s = none := by
  intro fuel
  induction fuel with
  | zero => intros; rfl
  | succ f ih =>
    intro off s hnp
    cases s with
    | nil => rfl
    | cons c rest =>
      rw [naiveGo,
        smart_match_requires_seg0 hmark hcf (by simpa using hnp 0)]
      exact ih (off + 1) rest (fun j => by simpa using hnp (j + 1))

lemma naiveGo_fuel_eq (reM : MatchFn) (p : SPat) (cl : Bool) :
    ∀ (f₁ f₂ off : Nat) (s : Str), s.length < f₁ → s.length < f₂ →
      naiveGo reM p cl f₁ off s = naiveGo reM p cl f₂ off s := by
  intro f₁
  induction f₁ with
  | zero => intro _ _ s h _; exact absurd h (Nat.not_lt_zero _)
  | succ f ih =>
    intro f₂ off s h1 h2
    cases f₂ with
    | zero => exact absurd h2 (Nat.not_lt_zero _)
    | succ f2 =>
      cases s with
      | nil => rfl
      | cons c rest =>
        rw [naiveGo, naiveGo]
        cases smart_match reM p cl (c :: rest) with
        | some m => rfl
        | none =>
          exact ih f2 (off + 1) rest (by simp at h1 ⊢; omega)
            (by simp at h2 ⊢; omega)

lemma naiveGo_skip {p : SPat} {cl : Bool}
    (hmark : containsSub p.markIgnore p.pattern = true)
    (hcf : '^' ∉ p.pattern) :
    ∀ (k : Nat) (s : Str) (off f f' : Nat), k ≤ s.length →
      (∀ j < k, (takeBefore p.markIgnore p.pattern).isPrefixOf (s.drop j) = false) →
      s.length < f → (s.drop k).length < f' →
      naiveGo litMatch p cl f off s = naiveGo litMatch p cl f' (off + k) (s.drop k) := by
  intro k
  induction k with
  | zero =>
    intro s off f f' _ _ hf hf'
    simpa using naiveGo_fuel_eq litMatch p cl f f' off s hf (by simpa using hf')
  | succ k ih =>
    intro s off f f' hk hnp hf hf'
    cases s with
    | nil => exact absurd hk (by simp)
    | cons c rest =>
      cases f with
      | zero => exact absurd hf (Nat.not_lt_zero _)
      | succ f0 =>
        rw [naiveGo,
          smart_match_requires_seg0 hmark hcf (by simpa using hnp 0 (by omega))]
        have := ih rest (off + 1) f0 f' (by simpa using hk)
          (fun j hj => by simpa using hnp (j + 1) (by omega))
          (by simp at hf; omega) (by simpa using hf')
        rw [this, show off + 1 + k = off + (k + 1) from by omega]
        rfl

lemma ssGo_eq_naiveGo {p : SPat} {cl : Bool}
    (hmark : containsSub p.markIgnore p.pattern = true)
    (hcf : '^' ∉ p.pattern) :
    ∀ (f : Nat) (s : Str) (pos f' : Nat), s.length < f → s.length < f' →
      ssGo litSearch litMatch p cl (takeBefore p.markIgnore p.pattern) f pos s
        = naiveGo litMatch p cl f' pos s := by
  intro f
  induction f with
  | zero => intro s pos f' h _; exact absurd h (Nat.not_lt_zero _)
  | succ f0 ih =>
    intro s pos f' h1 h2
    cases s with
    | nil =>
      cases f' with
      | zero => exact absurd h2 (Nat.not_lt_zero _)
      | succ f2 => rfl
    | cons c rest =>
      have hcf0 : '^' ∉ takeBefore p.markIgnore p.pattern := caretFree_takeBefore hcf
      rw [ssGo, litSearch_of_caretFree hcf0]
      cases hfi : firstIdx (takeBefore p.markIgnore p.pattern) (c :: rest) with
      | none =>
        simp only [Option.map_none']
        exact (naiveGo_of_no_seg0 hmark hcf f' pos (c :: rest)
          (firstIdx_none_facts hfi)).symm
      | some st =>
        simp only [Option.map_some']
        obtain ⟨hpre, hmin⟩ := firstIdx_some_facts hfi
        have hstlt : st < (c :: rest).length := firstIdx_lt_length (by simp) hfi
        have hdlen : ((c :: rest).drop st).length < f' := by
          rw [List.length_drop]; omega
        have hskip := @naiveGo_skip p cl hmark hcf st (c :: rest) pos f' f'
          (le_of_lt hstlt) (fun j hj => hmin j hj) h2 hdlen
        rw [hskip]
        obtain ⟨d, ds, hds⟩ : ∃ d ds, (c :: rest).drop st = d :: ds := by
          cases hx : (c :: rest).drop st with
          | nil =>
            exfalso
            have hlen0 := congrArg List.length hx
            rw [List.length_drop] at hlen0
            simp only [List.length_nil] at hlen0
            omega
          | cons d ds => exact ⟨d, ds, rfl⟩
        have hdslen : ds.length + 1 = rest.length + 1 - st := by
          have hx := congrArg List.length hds
          rw [List.length_drop] at hx
          simp only [List.length_cons] at hx
          omega
        cases f' with
        | zero => exact absurd h2 (Nat.not_lt_zero _)
        | succ f2 =>
          rw [hds, naiveGo]
          cases hsm : smart_match litMatch p cl (d :: ds) with
          | some m => obtain ⟨e, g⟩ := m; rfl
          | none =>
            show ssGo litSearch litMatch p cl (takeBefore p.markIgnore p.pattern)
                f0 (pos + st + 1) ((d :: ds).drop 1) = _
            have he1 : ds.length < f0 := by
              simp only [List.length_cons] at h1 hstlt hdslen
              omega
            have he2 : ds.length < f2 := by
              simp only [List.length_cons] at h2 hstlt hdslen
              omega
            exact ih ds (pos + st + 1) f2 he1 he2

/-- **C7 counterexample.**  For the SmartPattern `"^b{}"` on input `"ab"`,
the implemented `smart_search` regex-searches for the first segment `"^b"`,
which as an unanchored search can only match at offset 0 and fails, so
`smart_search` returns no match — while the naive reference search that
retries the anchored `smart_match` at offsets 0, 1, 2, … finds the match
`"b"` with absolute span `(1, 2)` at offset 1.  The two searches are not
equivalent for every SmartPattern and string. -/
theorem smart_search_naive_counterexample :
    smart_search litSearch litMatch ⟨"^b{}".toList, "()".toList, "{}".toList⟩ false
        ("ab".toList.length + 1) "ab".toList = none ∧
    naive_search litMatch ⟨"^b{}".toList, "()".toList, "{}".toList⟩ false
        ("ab".toList.length + 1) "ab".toList = some (1, 2, "b".toList) := by
  exact ⟨by decide, by decide⟩

/-- **C7 (amended).**  For every SmartPattern whose pattern text contains the
marker and contains no `^` anchor (so that each anchored match of the first
segment is also found by the unanchored regex search), `smart_search` —
which jumps to the next position where the first marker-delimited segment
matches and retries the anchored `smart_match` there, advancing one character
past the position on failure — returns exactly the result of the naive
reference search that retries the anchored `smart_match` at offset 0, 1, 2, …
until success or input exhaustion, spans carrying the cumulative absolute
offset. -/
theorem smart_search_eq_naive (p : SPat) (cl : Bool) (s : Str)
    (hmark : containsSub p.markIgnore p.pattern = true)
    (hcf : '^' ∉ p.pattern) :
    smart_search litSearch litMatch p cl (s.length + 1) s
      = naive_search litMatch p cl (s.length + 1) s := by
  rw [smart_search, if_pos hmark, naive_search]
  exact ssGo_eq_naiveGo hmark hcf (s.length + 1) s 0 (s.length + 1)
    (Nat.lt_succ_self _) (Nat.lt_succ_self _)

/-- **C7 witness.** -/
theorem smart_search_eq_naive_witness :
    containsSub "{}".toList "a{}b".toList = true ∧ '^' ∉ "a{}b".toList ∧
    smart_search litSearch litMatch ⟨"a{}b".toList, "()".toList, "{}".toList⟩ false
        ("xa(c)b".toList.length + 1) "xa(c)b".toList
      = naive_search litMatch ⟨"a{}b".toList, "()".toList, "{}".toList⟩ false
        ("xa(c)b".toList.length + 1) "xa(c)b".toList :=
  ⟨by decide, by decide,
    smart_search_eq_naive ⟨"a{}b".toList, "()".toList, "{}".toList⟩ false
      "xa(c)b".toList (by decide) (by decide)⟩
